import Mathlib

/-!
Verification of the apple-quartile-solver core (streamlit_app/solver):
a shallow embedding of `trie.py`, `word_generator.py`, `dictionary.py`
and `solver.py`, with theorems checking the specification's claims.

Words and tiles are modelled as `List Char` (Python strings are
sequences of characters; all operations in the source act
character-wise).  Python's `dict` of children is modelled as an
association list in insertion order: updating an existing key keeps
its position, a new key is appended (exactly the observable behaviour
of a Python `dict`).
-/

/-- A node of the trie from `trie.py`: `children` (a character-keyed
map of child nodes) and the `is_end` terminal flag. -/
inductive TrieNode where
  | mk (children : List (Char × TrieNode)) (is_end : Bool)

/-- `TrieNode.__init__`: empty children, `is_end = False`. -/
def TrieNode.empty : TrieNode := .mk [] false

def TrieNode.children : TrieNode → List (Char × TrieNode)
  | .mk cs _ => cs

def TrieNode.is_end : TrieNode → Bool
  | .mk _ e => e

/-- Lookup of `children[c]` in the association-list model of a Python
dict (`c in node.children` / `node.children[c]`). -/
def assocFind (c : Char) : List (Char × TrieNode) → Option TrieNode
  | [] => none
  | (d, y) :: rest => if d = c then some y else assocFind c rest

/-- `node.children[c] = x` in the association-list model: replace the
first binding of `c`, or append a new binding at the end (Python dict
insertion-order semantics). -/
def assocSet (c : Char) (x : TrieNode) : List (Char × TrieNode) → List (Char × TrieNode)
  | [] => [(c, x)]
  | (d, y) :: rest => if d = c then (c, x) :: rest else (d, y) :: assocSet c x rest

/-- `TrieNode.insert`: walk/create one child per character, then set
the final node's `is_end` flag. -/
def TrieNode.insert (t : TrieNode) : List Char → TrieNode
  | [] => .mk t.children true
  | c :: cs =>
    let child := (assocFind c t.children).getD TrieNode.empty
    .mk (assocSet c (child.insert cs) t.children) t.is_end

/-- `TrieNode.search`: walk the path; `False` on a missing child,
otherwise the final node's `is_end` flag. -/
def TrieNode.search (t : TrieNode) : List Char → Bool
  | [] => t.is_end
  | c :: cs =>
    match assocFind c t.children with
    | none => false
    | some child => child.search cs

mutual
/-- `TrieNode.word_count`: 1 for this node if `is_end`, plus the word
counts of all children. -/
def TrieNode.word_count : TrieNode → Nat
  | .mk children e => (if e then 1 else 0) + countChildren children
/-- Sum of `word_count` over a children list (`for child in
self.children.values()`). -/
def countChildren : List (Char × TrieNode) → Nat
  | [] => 0
  | (_, t) :: rest => t.word_count + countChildren rest
end

/-- A sequence of `insert` calls, in order. -/
def insertList (t : TrieNode) (ws : List (List Char)) : TrieNode :=
  ws.foldl TrieNode.insert t

-- ## word_generator.py

/-- `generate_plural` from `word_generator.py`: `word + "es"` after
s/sh/ch/x/z, `word[:-1] + "ies"` after consonant + y (length > 1),
otherwise `word + "s"`. -/
def generate_plural (w : List Char) : List Char :=
  if ['s'].isSuffixOf w || ['s','h'].isSuffixOf w || ['c','h'].isSuffixOf w
      || ['x'].isSuffixOf w || ['z'].isSuffixOf w then
    w ++ ['e', 's']
  else if ['y'].isSuffixOf w && decide (1 < w.length)
      && !(['a','e','i','o','u'].contains (w.getD (w.length - 2) ' ')) then
    w.dropLast ++ ['i', 'e', 's']
  else
    w ++ ['s']

/-- `generate_verb_forms` from `word_generator.py`: returns the pair
(past tense, present participle). -/
def generate_verb_forms (w : List Char) : List Char × List Char :=
  let past := if ['e'].isSuffixOf w then w ++ ['d'] else w ++ ['e', 'd']
  let participle :=
    if ['e'].isSuffixOf w && decide (1 < w.length) then w.dropLast ++ ['i', 'n', 'g']
    else w ++ ['i', 'n', 'g']
  (past, participle)

/-- Modelled from the spec's words (§4.2 `plural`), for comparison
with `generate_plural` as translated from the code: rule 1 (ends with
s, sh, ch, x or z), rule 2 (ends with y, preceding character not a
vowel, length > 1), rule 3 (default), expressed through the reversed
word. -/
def spec_plural (w : List Char) : List Char :=
  match w.reverse with
  | [] => w ++ ['s']
  | c :: rest =>
    if c = 's' ∨ c = 'x' ∨ c = 'z' ∨ (c = 'h' ∧ rest.headD ' ' = 's')
        ∨ (c = 'h' ∧ rest.headD ' ' = 'c') then
      w ++ ['e', 's']
    else if c = 'y' ∧ rest ≠ [] ∧ rest.headD ' ' ∉ (['a','e','i','o','u'] : List Char) then
      w.dropLast ++ ['i', 'e', 's']
    else
      w ++ ['s']

-- ## solver.py

/-- The apostrophe character, written by code point to keep source
scanners happy. -/
def quoteChar : Char := Char.ofNat 39

/-- The message `f"Tile '{tile}' is too long (maximum 10 characters)"`. -/
def tooLongMsg (tile : List Char) : String :=
  "Tile " ++ String.singleton quoteChar ++ String.mk tile ++ String.singleton quoteChar
    ++ " is too long (maximum 10 characters)"

/-- The per-tile loop of `validate_puzzle`: the first tile that is
empty or longer than 10 characters determines the error message. -/
def checkTiles : List (List Char) → Bool × String
  | [] => (true, "")
  | t :: rest =>
    if t.isEmpty then (false, "Empty tile found")
    else if t.length > 10 then (false, tooLongMsg t)
    else checkTiles rest

/-- `validate_puzzle` from `solver.py`. -/
def validate_puzzle (tiles : List (List Char)) : Bool × String :=
  if tiles.isEmpty then (false, "No tiles entered")
  else if tiles.length > 20 then (false, "Too many tiles (maximum 20)")
  else checkTiles tiles

/-- The candidate strings enumerated by `solve_puzzle`, in loop order:
for each `r` from 1 to `min(4, len(tiles))`, for each combination of
`r` tile positions, for each permutation of the chosen tiles, the
concatenation of the tile texts.  `itertools.combinations` is
modelled by `List.sublistsLen` (all position-subsequences of length
`r`) and `itertools.permutations` by `List.permutations` (all
orderings, with positional multiplicity). -/
def candidates (tiles : List (List Char)) : List (List Char) :=
  (List.range' 1 (min 4 tiles.length)).flatMap (fun r =>
    (List.sublistsLen r tiles).flatMap (fun combo =>
      combo.permutations.map (fun perm => perm.flatten)))

/-- `solve_puzzle` from `solver.py`: the ascending sorted list of the
distinct valid candidates (`sorted` of the `valid_words` set), and
the number of candidates enumerated (`permutations_checked`). -/
def solve_puzzle (tiles : List (List Char)) (trie : TrieNode) : List (List Char) × Nat :=
  (((candidates tiles).filter (fun w => trie.search w)).dedup.mergeSort
      (fun a b => decide (a ≤ b)),
   (candidates tiles).length)

-- ## dictionary.py

/-- Python `str.strip`: remove leading and trailing whitespace. -/
def pystrip (l : List Char) : List Char :=
  ((l.dropWhile Char.isWhitespace).reverse.dropWhile Char.isWhitespace).reverse

/-- Consume one expected character. -/
def expectChar (c : Char) : List Char → Option (List Char)
  | [] => none
  | x :: rest => if x = c then some rest else none

/-- Consume one or more digits (the regex atom `\d+`). -/
def dropDigits1 (l : List Char) : Option (List Char) :=
  if (l.takeWhile Char.isDigit).isEmpty then none
  else some (l.dropWhile Char.isDigit)

/-- The anchored-at-start match of the WordNet entry pattern
`s\(\d+,\d+,'([^']+)',([nvasr]),\d+,\d+\)\.?` (as used with
`re.match`, which allows arbitrary trailing text): returns the
headword (group 1) and the part-of-speech character (group 2). -/
def parseEntry (l : List Char) : Option (List Char × Char) :=
  match ((((((expectChar 's' l).bind (expectChar '(')).bind dropDigits1).bind
      (expectChar ',')).bind dropDigits1).bind (expectChar ',')).bind
      (expectChar quoteChar) with
  | none => none
  | some r =>
    let hw := r.takeWhile (fun c => c ≠ quoteChar)
    if hw.isEmpty then none
    else
      match (expectChar quoteChar (r.dropWhile (fun c => c ≠ quoteChar))).bind
          (expectChar ',') with
      | none => none
      | some r2 =>
        match r2 with
        | [] => none
        | p :: r3 =>
          if p ∈ (['n', 'v', 'a', 's', 'r'] : List Char) then
            match ((((expectChar ',' r3).bind dropDigits1).bind
                (expectChar ',')).bind dropDigits1).bind (expectChar ')') with
            | none => none
            | some _ => some (hw, p)
          else none

/-- One iteration of the `load_dictionary` loop: parse the stripped
line; skip non-matching lines and entries whose headword starts with
an upper-case character; otherwise insert the lower-cased word, the
plural for nouns, and past/participle for verbs, incrementing the
counter per insertion. -/
def processLine (acc : TrieNode × Nat) (line : List Char) : TrieNode × Nat :=
  match parseEntry (pystrip line) with
  | none => acc
  | some (hw, pos) =>
    if (hw.headD ' ').isUpper then acc
    else
      let word := (pystrip hw).map Char.toLower
      let t1 := acc.1.insert word
      let n1 := acc.2 + 1
      let t2 := if pos = 'n' then t1.insert (generate_plural word) else t1
      let n2 := if pos = 'n' then n1 + 1 else n1
      let t3 := if pos = 'v' then
          (t2.insert (generate_verb_forms word).1).insert (generate_verb_forms word).2
        else t2
      let n3 := if pos = 'v' then n2 + 2 else n2
      (t3, n3)

/-- `load_dictionary` from `dictionary.py`, over the stream of input
lines. -/
def load_dictionary (lines : List (List Char)) : TrieNode × Nat :=
  lines.foldl processLine (TrieNode.empty, 0)

/-- The counter contribution of one input line: 0 for non-matching
lines and skipped proper nouns, otherwise 1 for the base word plus 1
for a noun plural plus 2 for verb forms. -/
def lineWeight (line : List Char) : Nat :=
  match parseEntry (pystrip line) with
  | none => 0
  | some (hw, pos) =>
    if (hw.headD ' ').isUpper then 0
    else 1 + (if pos = 'n' then 1 else 0) + (if pos = 'v' then 2 else 0)

/-- A WordNet-style line `s(1,1,'Cat',n,1,1).` whose headword starts
with an upper-case letter. -/
def upperCatLine : List Char :=
  ['s','(','1',',','1',','] ++ [quoteChar] ++ ['C','a','t'] ++ [quoteChar]
    ++ [',','n',',','1',',','1',')','.']

/-- A WordNet-style line `s(2,1,'cat',n,1,1).` with a lower-case
headword. -/
def lowerCatLine : List Char :=
  ['s','(','2',',','1',','] ++ [quoteChar] ++ ['c','a','t'] ++ [quoteChar]
    ++ [',','n',',','1',',','1',')','.']

-- ## Lemmas about the trie

theorem assocFind_assocSet_self (c : Char) (x : TrieNode) (l : List (Char × TrieNode)) :
    assocFind c (assocSet c x l) = some x := by
  induction l with
  | nil => simp [assocSet, assocFind]
  | cons p rest ih =>
    obtain ⟨d, y⟩ := p
    by_cases h : d = c
    · simp [assocSet, h, assocFind]
    · simp [assocSet, h, assocFind, ih]

theorem assocFind_assocSet_ne (c d : Char) (x : TrieNode) (l : List (Char × TrieNode))
    (h : d ≠ c) : assocFind d (assocSet c x l) = assocFind d l := by
  induction l with
  | nil => simp [assocSet, assocFind, Ne.symm h]
  | cons p rest ih =>
    obtain ⟨e, y⟩ := p
    by_cases he : e = c
    · subst he
      simp [assocSet, assocFind, Ne.symm h]
    · simp [assocSet, he, assocFind, ih]

theorem TrieNode.search_empty (w : List Char) : TrieNode.empty.search w = false := by
  cases w with
  | nil => rfl
  | cons c cs => rfl

theorem TrieNode.search_cons (t : TrieNode) (c : Char) (cs : List Char) :
    t.search (c :: cs) = ((assocFind c t.children).getD TrieNode.empty).search cs := by
  rw [TrieNode.search]
  cases h : assocFind c t.children with
  | none => simp [TrieNode.search_empty]
  | some child => simp

theorem TrieNode.search_insert_self (w : List Char) : ∀ t : TrieNode,
    (t.insert w).search w = true := by
  induction w with
  | nil => intro t; rfl
  | cons c cs ih =>
    intro t
    rw [TrieNode.insert, TrieNode.search_cons]
    simp only [TrieNode.children]
    rw [assocFind_assocSet_self]
    exact ih _

theorem TrieNode.search_insert_ne (v : List Char) : ∀ (w : List Char) (t : TrieNode),
    w ≠ v → (t.insert v).search w = t.search w := by
  induction v with
  | nil =>
    intro w t h
    cases w with
    | nil => exact absurd rfl h
    | cons c cs =>
      rw [TrieNode.insert, TrieNode.search_cons, TrieNode.search_cons]
      simp only [TrieNode.children]
  | cons c cs ih =>
    intro w t h
    cases w with
    | nil => rw [TrieNode.insert]; rfl
    | cons d ds =>
      by_cases hdc : d = c
      · subst hdc
        have hne : ds ≠ cs := fun he => h (by rw [he])
        rw [TrieNode.insert, TrieNode.search_cons]
        simp only [TrieNode.children]
        rw [assocFind_assocSet_self]
        simp only [Option.getD_some]
        rw [ih ds _ hne, TrieNode.search_cons]
        simp only [TrieNode.children]
      · rw [TrieNode.insert, TrieNode.search_cons, TrieNode.search_cons]
        simp only [TrieNode.children]
        rw [assocFind_assocSet_ne c d _ _ hdc]

theorem TrieNode.search_insert (t : TrieNode) (v w : List Char) :
    (t.insert v).search w = (decide (w = v) || t.search w) := by
  by_cases h : w = v
  · subst h
    simp [TrieNode.search_insert_self]
  · simp [h, TrieNode.search_insert_ne v w t h]

theorem search_insertList (ws : List (List Char)) : ∀ (t : TrieNode) (w : List Char),
    ((insertList t ws).search w = true) ↔ (w ∈ ws ∨ t.search w = true) := by
  induction ws with
  | nil => intro t w; simp [insertList]
  | cons v rest ih =>
    intro t w
    have : insertList t (v :: rest) = insertList (t.insert v) rest := rfl
    rw [this, ih, TrieNode.search_insert]
    simp only [List.mem_cons, Bool.or_eq_true, decide_eq_true_eq]
    tauto

theorem assocSet_assocSet (c : Char) (x y : TrieNode) (l : List (Char × TrieNode)) :
    assocSet c y (assocSet c x l) = assocSet c y l := by
  induction l with
  | nil => simp [assocSet]
  | cons p rest ih =>
    obtain ⟨d, z⟩ := p
    by_cases h : d = c
    · simp [assocSet, h]
    · simp [assocSet, h, ih]

theorem TrieNode.insert_insert_self (w : List Char) : ∀ t : TrieNode,
    (t.insert w).insert w = t.insert w := by
  induction w with
  | nil => intro t; rfl
  | cons c cs ih =>
    intro t
    conv_lhs => rw [TrieNode.insert]
    simp only [TrieNode.insert, TrieNode.children, TrieNode.is_end]
    rw [assocFind_assocSet_self]
    simp only [Option.getD_some]
    rw [ih, assocSet_assocSet]

theorem TrieNode.word_count_empty : TrieNode.empty.word_count = 0 := rfl

theorem countChildren_assocSet (c : Char) (x : TrieNode) (l : List (Char × TrieNode)) :
    countChildren (assocSet c x l) + ((assocFind c l).getD TrieNode.empty).word_count =
      countChildren l + x.word_count := by
  induction l with
  | nil => simp [assocSet, assocFind, countChildren, TrieNode.word_count_empty]
  | cons p rest ih =>
    obtain ⟨d, y⟩ := p
    by_cases h : d = c
    · subst h
      simp [assocSet, assocFind, countChildren]
      omega
    · simp only [assocSet, if_neg h, assocFind, countChildren, if_neg h]
      omega

theorem TrieNode.word_count_insert (w : List Char) : ∀ t : TrieNode,
    (t.insert w).word_count = t.word_count + (if t.search w then 0 else 1) := by
  induction w with
  | nil =>
    intro t
    obtain ⟨children, e⟩ := t
    simp only [TrieNode.insert, TrieNode.word_count, TrieNode.search, TrieNode.is_end,
      TrieNode.children]
    cases e
    · simp
      omega
    · simp
  | cons c cs ih =>
    intro t
    rw [TrieNode.search_cons]
    obtain ⟨children, e⟩ := t
    simp only [TrieNode.insert, TrieNode.children, TrieNode.is_end, TrieNode.word_count]
    have hset := countChildren_assocSet c
      (((assocFind c children).getD TrieNode.empty).insert cs) children
    have hins := ih ((assocFind c children).getD TrieNode.empty)
    by_cases hsb : ((assocFind c children).getD TrieNode.empty).search cs = true
    · rw [if_pos hsb] at hins
      rw [if_pos hsb]
      omega
    · rw [if_neg hsb] at hins
      rw [if_neg hsb]
      omega

theorem TrieNode.word_count_insertList (ws : List (List Char)) : ∀ t : TrieNode,
    (insertList t ws).word_count =
      t.word_count + (ws.toFinset.filter (fun w => t.search w = false)).card := by
  induction ws with
  | nil => intro t; simp [insertList]
  | cons w rest ih =>
    intro t
    have hstep : insertList t (w :: rest) = insertList (t.insert w) rest := rfl
    rw [hstep, ih, TrieNode.word_count_insert]
    have hsearch : ∀ v, ((t.insert w).search v = false) ↔ (¬ v = w ∧ t.search v = false) := by
      intro v
      rw [TrieNode.search_insert]
      simp
    by_cases h : t.search w = true
    · have hfw : ¬ (t.search w = false) := by simp [h]
      have hfilter : rest.toFinset.filter (fun v => (t.insert w).search v = false) =
          (w :: rest).toFinset.filter (fun v => t.search v = false) := by
        ext v
        simp only [Finset.mem_filter, List.toFinset_cons, Finset.mem_insert, List.mem_toFinset,
          hsearch v]
        constructor
        · rintro ⟨hv, hne, hs⟩; exact ⟨Or.inr hv, hs⟩
        · rintro ⟨hv, hs⟩
          rcases hv with hv | hv
          · exact absurd (hv ▸ hs) hfw
          · refine ⟨hv, ?_, hs⟩
            intro he; exact hfw (he ▸ hs)
      rw [hfilter, h]
      simp
    · have hfw : t.search w = false := by
        cases hb : t.search w with
        | false => rfl
        | true => exact absurd hb h
      have hfilter : rest.toFinset.filter (fun v => (t.insert w).search v = false) =
          ((w :: rest).toFinset.filter (fun v => t.search v = false)).erase w := by
        ext v
        simp only [Finset.mem_filter, List.toFinset_cons, Finset.mem_insert, List.mem_toFinset,
          Finset.mem_erase, hsearch v]
        constructor
        · rintro ⟨hv, hne, hs⟩; exact ⟨hne, Or.inr hv, hs⟩
        · rintro ⟨hne, hv, hs⟩
          rcases hv with hv | hv
          · exact absurd hv hne
          · exact ⟨hv, hne, hs⟩
      rw [hfilter]
      have hwmem : w ∈ (w :: rest).toFinset.filter (fun v => t.search v = false) := by
        simp [hfw]
      rw [Finset.card_erase_of_mem hwmem]
      have hpos : 0 < ((w :: rest).toFinset.filter (fun v => t.search v = false)).card :=
        Finset.card_pos.mpr ⟨w, hwmem⟩
      rw [if_neg h]
      omega

-- ## Claim theorems (trie)

/-- C1: after any sequence of inserts into an initially empty trie,
`search w` returns true iff `w` was inserted verbatim; in particular a
strict prefix `p` of an inserted word that was never itself inserted
yields `search p = false`. -/
theorem claim_trie_search_iff_inserted (ws : List (List Char)) (w : List Char) :
    ((insertList TrieNode.empty ws).search w = true ↔ w ∈ ws) ∧
    (∀ p q r : List Char, q ∈ ws → q = p ++ r → r ≠ [] → p ∉ ws →
      (insertList TrieNode.empty ws).search p = false) := by
  have base : ∀ v, ((insertList TrieNode.empty ws).search v = true) ↔ v ∈ ws := by
    intro v
    rw [search_insertList]
    simp [TrieNode.search_empty]
  refine ⟨base w, ?_⟩
  intro p q r _ _ _ hp
  cases hb : (insertList TrieNode.empty ws).search p with
  | false => rfl
  | true => exact absurd ((base p).mp hb) hp

/-- C1 witness: with words {"ab"} inserted, `search "ab"` is true and
the strict prefix "a" is not found. -/
theorem claim_trie_search_iff_inserted_witness :
    (insertList TrieNode.empty [['a', 'b']]).search ['a', 'b'] = true ∧
    (insertList TrieNode.empty [['a', 'b']]).search ['a'] = false :=
  ⟨(claim_trie_search_iff_inserted [['a', 'b']] ['a', 'b']).1.mpr (by simp),
   (claim_trie_search_iff_inserted [['a', 'b']] ['a', 'b']).2 ['a'] ['a', 'b'] ['b']
     (by simp) rfl (by simp) (by simp)⟩

/-- C4: insertion is idempotent for every observable (`search` results
and `word_count`), and `word_count` after any insert sequence equals
the number of distinct words inserted; concretely, inserting
{"cat","dog","bird"} gives count 3, and re-inserting "cat" keeps it 3. -/
theorem claim_insert_idempotent_count (t : TrieNode) (w : List Char)
    (ws : List (List Char)) :
    (∀ v, ((t.insert w).insert w).search v = (t.insert w).search v) ∧
    ((t.insert w).insert w).word_count = (t.insert w).word_count ∧
    (insertList TrieNode.empty ws).word_count = ws.toFinset.card ∧
    (insertList TrieNode.empty
      [['c','a','t'], ['d','o','g'], ['b','i','r','d']]).word_count = 3 ∧
    (insertList TrieNode.empty
      [['c','a','t'], ['d','o','g'], ['b','i','r','d'], ['c','a','t']]).word_count = 3 := by
  refine ⟨?_, ?_, ?_, by decide, by decide⟩
  · intro v; rw [TrieNode.insert_insert_self]
  · rw [TrieNode.insert_insert_self]
  · rw [TrieNode.word_count_insertList]
    rw [TrieNode.word_count_empty]
    have : ws.toFinset.filter (fun v => TrieNode.empty.search v = false) = ws.toFinset := by
      apply Finset.filter_true_of_mem
      intro v _
      exact TrieNode.search_empty v
    rw [this]
    simp

/-- C10: a fresh trie node finds nothing, including the empty string;
after `insert ""` on the root, `search ""` is true and `word_count`
counts the empty word. -/
theorem claim_trie_empty_string :
    (∀ w : List Char, TrieNode.empty.search w = false) ∧
    (TrieNode.empty.insert []).search [] = true ∧
    (TrieNode.empty.insert []).word_count = 1 ∧
    (∀ t : TrieNode, (t.insert []).search [] = true) ∧
    (∀ t : TrieNode, (t.insert []).word_count =
      t.word_count + (if t.search [] then 0 else 1)) :=
  ⟨TrieNode.search_empty, rfl, rfl,
   fun t => TrieNode.search_insert_self [] t,
   fun t => TrieNode.word_count_insert [] t⟩

-- ## Lemmas and claim for word_generator.py (plural)

theorem isSuffixOf_single (x c : Char) (u : List Char) :
    ([x].isSuffixOf (u ++ [c])) = (x == c) := by
  simp [List.isSuffixOf, List.isPrefixOf]

theorem isSuffixOf_pair_nil (x y : Char) : ([x, y].isSuffixOf ([] : List Char)) = false := by
  simp [List.isSuffixOf, List.isPrefixOf]

theorem isSuffixOf_pair_single (x y c : Char) : ([x, y].isSuffixOf [c]) = false := by
  simp [List.isSuffixOf, List.isPrefixOf]

theorem isSuffixOf_pair (x y p c : Char) (u : List Char) :
    ([x, y].isSuffixOf (u ++ [p, c])) = (x == p && y == c) := by
  have h : u ++ [p, c] = (u ++ [p]) ++ [c] := by simp
  simp [List.isSuffixOf, List.isPrefixOf, Bool.and_comm]

theorem getD_penult (u : List Char) (p c x : Char) :
    (u ++ [p, c]).getD ((u ++ [p, c]).length - 2) x = p := by
  have hlen : (u ++ [p, c]).length = u.length + 2 := by simp
  rw [hlen]
  simp [List.getD_append_right, List.getD, List.getElem_append_right]

theorem dropLast_pair (u : List Char) (p c : Char) :
    (u ++ [p, c]).dropLast = u ++ [p] := by
  have h : u ++ [p, c] = (u ++ [p]) ++ [c] := by simp
  rw [h, List.dropLast_concat]

theorem isSuffixOf_single_one (x c : Char) : ([x].isSuffixOf [c]) = (x == c) := by
  simpa using isSuffixOf_single x c []

theorem generate_plural_eq_spec (w : List Char) : generate_plural w = spec_plural w := by
  rcases List.eq_nil_or_concat w with rfl | ⟨u, c, rfl⟩
  · decide
  · rcases List.eq_nil_or_concat u with rfl | ⟨v, p, rfl⟩
    · -- w = [c]
      simp only [List.concat_eq_append, List.nil_append]
      by_cases h1 : c = 's'
      · subst h1; decide
      by_cases h2 : c = 'x'
      · subst h2; decide
      by_cases h3 : c = 'z'
      · subst h3; decide
      by_cases h4 : c = 'h'
      · subst h4; decide
      by_cases h5 : c = 'y'
      · subst h5; decide
      · have h1' : ('s' : Char) ≠ c := fun h => h1 h.symm
        have h2' : ('x' : Char) ≠ c := fun h => h2 h.symm
        have h3' : ('z' : Char) ≠ c := fun h => h3 h.symm
        have h5' : ('y' : Char) ≠ c := fun h => h5 h.symm
        simp [generate_plural, spec_plural, isSuffixOf_single_one, isSuffixOf_pair_single,
          h1, h2, h3, h4, h5, h1', h2', h3', h5']
    · -- w = v ++ [p, c]
      simp only [List.concat_eq_append, List.append_assoc, List.singleton_append]
      have hs : (['s'].isSuffixOf (v ++ [p, c])) = ('s' == c) := by
        simpa using isSuffixOf_single 's' c (v ++ [p])
      have hx : (['x'].isSuffixOf (v ++ [p, c])) = ('x' == c) := by
        simpa using isSuffixOf_single 'x' c (v ++ [p])
      have hz : (['z'].isSuffixOf (v ++ [p, c])) = ('z' == c) := by
        simpa using isSuffixOf_single 'z' c (v ++ [p])
      have hy : (['y'].isSuffixOf (v ++ [p, c])) = ('y' == c) := by
        simpa using isSuffixOf_single 'y' c (v ++ [p])
      have hsh := isSuffixOf_pair 's' 'h' p c v
      have hch := isSuffixOf_pair 'c' 'h' p c v
      have hget := getD_penult v p c ' '
      have hdrop := dropLast_pair v p c
      have hlen : (decide (1 < (v ++ [p, c]).length)) = true := by simp
      have hrev : (v ++ [p, c]).reverse = c :: p :: v.reverse := by simp
      simp only [generate_plural, spec_plural, hs, hx, hz, hy, hsh, hch, hget, hdrop, hlen,
        hrev, List.headD_cons]
      by_cases h1 : c = 's'
      · subst h1; simp
      by_cases h2 : c = 'x'
      · subst h2; simp [h1]
      by_cases h3 : c = 'z'
      · subst h3; simp [h1, h2]
      by_cases h4 : c = 'h'
      · subst h4
        by_cases hp1 : p = 's'
        · subst hp1; simp
        by_cases hp2 : p = 'c'
        · subst hp2; simp
        · have hp1' : ('s' : Char) ≠ p := fun h => hp1 h.symm
          have hp2' : ('c' : Char) ≠ p := fun h => hp2 h.symm
          simp [hp1', hp2', hp1, hp2]
      by_cases h5 : c = 'y'
      · subst h5
        have h1' : ('s' : Char) ≠ 'y' := by decide
        by_cases hp : p ∈ (['a','e','i','o','u'] : List Char)
        · simp [hp, h1, h2, h3, h4]
        · simp [hp, h1, h2, h3, h4]
      · have h1' : ('s' : Char) ≠ c := fun h => h1 h.symm
        have h2' : ('x' : Char) ≠ c := fun h => h2 h.symm
        have h3' : ('z' : Char) ≠ c := fun h => h3 h.symm
        have h5' : ('y' : Char) ≠ c := fun h => h5 h.symm
        have h4' : ('h' : Char) ≠ c := fun h => h4 h.symm
        simp [h1, h2, h3, h4, h5, h1', h2', h3', h4', h5']

/-- C9: `generate_plural` implements the spec's three-rule cascade:
it equals `spec_plural` (modelled from the spec's words) on every
word, and matches the six documented examples
cat/box/church/fly/boy/key. -/
theorem claim_generate_plural_cascade (w : List Char) :
    generate_plural w = spec_plural w ∧
    generate_plural ['c','a','t'] = ['c','a','t','s'] ∧
    generate_plural ['b','o','x'] = ['b','o','x','e','s'] ∧
    generate_plural ['c','h','u','r','c','h'] = ['c','h','u','r','c','h','e','s'] ∧
    generate_plural ['f','l','y'] = ['f','l','i','e','s'] ∧
    generate_plural ['b','o','y'] = ['b','o','y','s'] ∧
    generate_plural ['k','e','y'] = ['k','e','y','s'] :=
  ⟨generate_plural_eq_spec w, by decide, by decide, by decide, by decide, by decide, by decide⟩

-- ## C5 validate

/-- The per-tile validation loop returns the verdict of the first
offending tile, located by `find?`. -/
theorem checkTiles_eq_find (tiles : List (List Char)) :
    checkTiles tiles =
      match tiles.find? (fun t => t.isEmpty || decide (t.length > 10)) with
      | none => (true, "")
      | some t => (false, if t.isEmpty then "Empty tile found" else tooLongMsg t) := by
  induction tiles with
  | nil => rfl
  | cons t rest ih =>
    by_cases he : t.isEmpty
    · simp [checkTiles, he, List.find?_cons]
    · by_cases hl : t.length > 10
      · simp [checkTiles, he, hl, List.find?_cons]
      · simp [checkTiles, he, hl, List.find?_cons, ih]

/-- C5 (amended): `validate_puzzle` returns (false, "No tiles
entered") on the empty list, (false, "Too many tiles (maximum 20)")
above 20 tiles, and otherwise the verdict of the FIRST tile that is
empty or longer than 10 characters — the empty-tile message if that
tile is empty, else the too-long message naming it — or (true, "")
when no tile offends. -/
theorem claim_validate_amended (tiles : List (List Char)) :
    validate_puzzle tiles =
      if tiles = [] then (false, "No tiles entered")
      else if tiles.length > 20 then (false, "Too many tiles (maximum 20)")
      else
        match tiles.find? (fun t => t.isEmpty || decide (t.length > 10)) with
        | none => (true, "")
        | some t => (false, if t.isEmpty then "Empty tile found" else tooLongMsg t) := by
  rw [validate_puzzle]
  by_cases h0 : tiles = []
  · subst h0; rfl
  · rw [if_neg (by simpa [List.isEmpty_iff] using h0), if_neg h0]
    by_cases h1 : tiles.length > 20
    · rw [if_pos h1, if_pos h1]
    · rw [if_neg h1, if_neg h1, checkTiles_eq_find]

/-- C5 counterexample: the list ["aaaaaaaaaaa", ""] contains an empty
tile, yet `validate_puzzle` does not return "Empty tile found" (it
reports the too-long first tile), refuting the claim's global case
order. -/
theorem claim_validate_counterexample :
    (([] : List Char) ∈ [List.replicate 11 'a', ([] : List Char)]) ∧
    (validate_puzzle [List.replicate 11 'a', []]).1 = false ∧
    (validate_puzzle [List.replicate 11 'a', []]).2 ≠ "Empty tile found" :=
  ⟨by simp, by decide, by decide⟩

-- ## C6 dictionary proper-noun skip

/-- `headD` written through `head?`, matching simp normal form. -/
theorem headD_eq_getD_head? (l : List Char) (d : Char) : l.headD d = l.head?.getD d := by
  cases l <;> rfl

/-- A line whose parsed headword starts with an upper-case character
leaves the accumulator untouched. -/
theorem processLine_skip_upper (line hw : List Char) (pos : Char)
    (h1 : parseEntry (pystrip line) = some (hw, pos))
    (h2 : (hw.headD ' ').isUpper = true) (acc : TrieNode × Nat) :
    processLine acc line = acc := by
  rw [headD_eq_getD_head?] at h2
  simp only [processLine]
  rw [h1]
  simp [h2]

/-- C6 (amended): an entry whose headword's first pre-normalization
character is upper-case is skipped entirely — processing it leaves
the (trie, counter) state unchanged, and removing it from the lexicon
does not change the construction result. -/
theorem claim_uppercase_entry_skipped (acc : TrieNode × Nat) (line hw : List Char) (pos : Char)
    (h1 : parseEntry (pystrip line) = some (hw, pos))
    (h2 : (hw.headD ' ').isUpper = true) :
    processLine acc line = acc ∧
    ∀ pre post : List (List Char),
      load_dictionary (pre ++ line :: post) = load_dictionary (pre ++ post) := by
  refine ⟨processLine_skip_upper line hw pos h1 h2 acc, ?_⟩
  intro pre post
  rw [load_dictionary, load_dictionary, List.foldl_append, List.foldl_append, List.foldl_cons,
    processLine_skip_upper line hw pos h1 h2]

/-- C6 witness: the concrete upper-case line `s(1,1,'Cat',n,1,1).` is
a no-op for processing and removable from a lexicon. -/
theorem claim_uppercase_entry_skipped_witness :
    processLine (TrieNode.empty, 0) upperCatLine = (TrieNode.empty, 0) ∧
    load_dictionary [upperCatLine, lowerCatLine] = load_dictionary [lowerCatLine] := by
  have h := claim_uppercase_entry_skipped (TrieNode.empty, 0) upperCatLine ['C','a','t'] 'n'
    (by decide) (by decide)
  exact ⟨h.1, by simpa using h.2 [] [lowerCatLine]⟩

/-- C6 counterexample: a lexicon containing the upper-case entry for
"Cat" together with a lower-case entry for "cat" DOES match "cat"
after construction, refuting the claim's universally quantified
second half. -/
theorem claim_uppercase_entry_counterexample :
    (parseEntry (pystrip upperCatLine) = some (['C','a','t'], 'n')) ∧
    ((['C','a','t'].headD ' ').isUpper = true) ∧
    (load_dictionary [upperCatLine, lowerCatLine]).1.search ['c','a','t'] = true :=
  ⟨by decide, by decide, by decide⟩

-- ## C7 dictionary counter

/-- The counter component of one loop iteration grows by exactly the
line's insertion-attempt weight, independent of the trie. -/
theorem processLine_counter (acc : TrieNode × Nat) (line : List Char) :
    (processLine acc line).2 = acc.2 + lineWeight line := by
  simp only [processLine, lineWeight]
  cases h : parseEntry (pystrip line) with
  | none => simp
  | some pr =>
    obtain ⟨hw, pos⟩ := pr
    by_cases hu : (hw.head?.getD ' ').isUpper = true
    · simp [hu]
    · by_cases hn : pos = 'n' <;> by_cases hv : pos = 'v' <;> simp [hu, hn, hv]

/-- C7: the counter returned by dictionary construction is the sum
over input lines of the per-line insertion attempts (1 for the base
word, +1 for a noun plural, +2 for verb forms, 0 for skipped lines);
two identical "cat" noun lines give counter 4 while the trie stores
only 2 distinct words. -/
theorem claim_dictionary_counter (lines : List (List Char)) :
    (load_dictionary lines).2 = (lines.map lineWeight).sum ∧
    (load_dictionary [lowerCatLine, lowerCatLine]).2 = 4 ∧
    (load_dictionary [lowerCatLine, lowerCatLine]).1.word_count = 2 := by
  refine ⟨?_, by decide, by decide⟩
  have hgen : ∀ (ls : List (List Char)) (acc : TrieNode × Nat),
      (ls.foldl processLine acc).2 = acc.2 + (ls.map lineWeight).sum := by
    intro ls
    induction ls with
    | nil => intro acc; simp
    | cons l rest ih =>
      intro acc
      simp only [List.foldl_cons, List.map_cons, List.sum_cons]
      rw [ih, processLine_counter]
      omega
  simpa using hgen lines (TrieNode.empty, 0)

-- ## C2 solver word set

/-- A string is a candidate iff it is the concatenation of some
ordering of some 1-to-4-element position-subsequence of the tiles. -/
theorem mem_candidates (tiles : List (List Char)) (s : List Char) :
    s ∈ candidates tiles ↔
      ∃ sel ord : List (List Char), sel.Sublist tiles ∧ 1 ≤ sel.length ∧
        sel.length ≤ 4 ∧ ord.Perm sel ∧ s = ord.flatten := by
  simp only [candidates, List.mem_flatMap, List.mem_map, List.mem_sublistsLen,
    List.mem_permutations, List.mem_range'_1]
  constructor
  · rintro ⟨r, ⟨hr1, hr2⟩, combo, ⟨hsub, hlen⟩, perm, hperm, rfl⟩
    have hmin : min 4 tiles.length ≤ 4 := min_le_left _ _
    exact ⟨combo, perm, hsub, by omega, by omega, hperm, rfl⟩
  · rintro ⟨sel, ord, hsub, hlen1, hlen4, hperm, rfl⟩
    have hn : sel.length ≤ tiles.length := hsub.length_le
    refine ⟨sel.length, ⟨hlen1, ?_⟩, sel, ⟨hsub, rfl⟩, ord, hperm, rfl⟩
    have : sel.length ≤ min 4 tiles.length := le_min hlen4 hn
    omega

/-- C2: the word list returned by `solve_puzzle` is strictly
ascending (hence distinct), and contains exactly the strings that are
the concatenation, in some ordering, of a combination of 1 to 4 tile
positions and that the trie contains. -/
theorem claim_solve_word_set (tiles : List (List Char)) (trie : TrieNode) :
    List.Pairwise (· < ·) (solve_puzzle tiles trie).1 ∧
    (∀ s : List Char, s ∈ (solve_puzzle tiles trie).1 ↔
      (trie.search s = true ∧ ∃ sel ord : List (List Char),
        sel.Sublist tiles ∧ 1 ≤ sel.length ∧ sel.length ≤ 4 ∧
        ord.Perm sel ∧ s = ord.flatten)) := by
  constructor
  · have hperm := List.mergeSort_perm
      (((candidates tiles).filter (fun w => trie.search w)).dedup)
      (fun a b => decide (a ≤ b))
    have hsorted := @List.sorted_mergeSort (List Char)
      (fun a b => decide (a ≤ b))
      (fun a b c hab hbc => by
        simp only [decide_eq_true_eq] at *
        exact le_trans hab hbc)
      (fun a b => by
        simp only [Bool.or_eq_true, decide_eq_true_eq]
        exact le_total a b)
      (((candidates tiles).filter (fun w => trie.search w)).dedup)
    have hnodup : (solve_puzzle tiles trie).1.Nodup :=
      hperm.symm.nodup (List.nodup_dedup _)
    have hle : List.Pairwise (fun a b : List Char => a ≤ b) (solve_puzzle tiles trie).1 := by
      refine hsorted.imp ?_
      intro a b h
      simpa using h
    exact List.Sorted.lt_of_le hle hnodup
  · intro s
    have h1 : s ∈ (solve_puzzle tiles trie).1 ↔
        s ∈ ((candidates tiles).filter (fun w => trie.search w)).dedup :=
      (List.mergeSort_perm _ _).mem_iff
    rw [h1, List.mem_dedup, List.mem_filter, mem_candidates]
    exact and_comm

-- ## C3 counter

/-- A sum over `range' 1 m` written as a sum over `Icc 1 m`. -/
theorem range'_map_sum_eq_Icc (f : Nat → Nat) (m : Nat) :
    ((List.range' 1 m).map f).sum = ∑ r ∈ Finset.Icc 1 m, f r := by
  induction m with
  | zero => simp
  | succ k ih =>
    rw [List.range'_concat, List.map_append, List.sum_append, ih,
      Finset.sum_Icc_succ_top (by omega : 1 ≤ k + 1)]
    simp only [List.map_cons, List.map_nil, List.sum_cons, List.sum_nil, Nat.add_zero]
    congr 2
    omega

/-- The number of enumerated candidates is the sum over r of
n!/(n-r)!, independently of the dictionary. -/
theorem candidates_length (tiles : List (List Char)) :
    (candidates tiles).length =
      ∑ r ∈ Finset.Icc 1 (min 4 tiles.length),
        (tiles.length).factorial / (tiles.length - r).factorial := by
  rw [candidates, List.length_flatMap]
  have hcongr : (List.range' 1 (min 4 tiles.length)).map
      (List.length ∘ fun r => (List.sublistsLen r tiles).flatMap
        (fun combo => combo.permutations.map (fun perm => perm.flatten))) =
      (List.range' 1 (min 4 tiles.length)).map
        (fun r => (tiles.length).factorial / (tiles.length - r).factorial) := by
    apply List.map_congr_left
    intro r hr
    have hrr := List.mem_range'_1.mp hr
    have hrn : r ≤ tiles.length := by
      have h4 : r ≤ min 4 tiles.length := by omega
      exact le_trans h4 (min_le_right _ _)
    simp only [Function.comp_apply, List.length_flatMap]
    have hinner : (List.sublistsLen r tiles).map
        (List.length ∘ fun combo => combo.permutations.map (fun perm => perm.flatten)) =
        (List.sublistsLen r tiles).map (fun _ => r.factorial) := by
      apply List.map_congr_left
      intro combo hc
      simp only [Function.comp_apply, List.length_map, List.length_permutations,
        (List.mem_sublistsLen.mp hc).2]
    rw [hinner]
    have hconst : ((List.sublistsLen r tiles).map (fun _ => r.factorial)).sum =
        (List.sublistsLen r tiles).length * r.factorial := by
      simp [List.map_const, List.sum_replicate, Nat.smul_one_eq_cast]
    rw [hconst, List.length_sublistsLen]
    have hid := Nat.choose_mul_factorial_mul_factorial hrn
    exact (Nat.div_eq_of_eq_mul_left (Nat.factorial_pos _) hid.symm).symm
  rw [hcongr, range'_map_sum_eq_Icc]

/-- C3: `permutations_checked` equals the sum over r from 1 to
min(4, n) of n!/(n-r)!, independent of the trie; concretely 15 for
n = 3 and 123520 for n = 20. -/
theorem claim_permutations_counter (tiles : List (List Char)) (trie : TrieNode) :
    (solve_puzzle tiles trie).2 =
      ∑ r ∈ Finset.Icc 1 (min 4 tiles.length),
        (tiles.length).factorial / (tiles.length - r).factorial ∧
    (solve_puzzle [['c'], ['a'], ['t']] TrieNode.empty).2 = 15 ∧
    (solve_puzzle (List.replicate 20 ['a']) TrieNode.empty).2 = 123520 := by
  refine ⟨candidates_length tiles, ?_, ?_⟩
  · show (candidates [['c'], ['a'], ['t']]).length = 15
    rw [candidates_length]
    decide
  · show (candidates (List.replicate 20 ['a'])).length = 123520
    rw [candidates_length]
    decide

-- ## C8 totality

/-- C8: for a validated tile list, `solve_puzzle` is total (it is a
Lean function) and returns the empty word list, together with the
enumeration counter, when no candidate is contained in the trie. -/
theorem claim_solve_total (tiles : List (List Char)) (trie : TrieNode)
    (_hval : (validate_puzzle tiles).1 = true)
    (hmiss : ∀ w ∈ candidates tiles, trie.search w = false) :
    (solve_puzzle tiles trie).1 = [] ∧
    (solve_puzzle tiles trie).2 = (candidates tiles).length := by
  refine ⟨?_, rfl⟩
  have hfil : (candidates tiles).filter (fun w => trie.search w) = [] := by
    rw [List.filter_eq_nil_iff]
    intro a ha
    simp [hmiss a ha]
  show ((((candidates tiles).filter (fun w => trie.search w)).dedup).mergeSort
      (fun a b => decide (a ≤ b))) = []
  rw [hfil]
  simp

/-- C8 witness: one validated tile against the empty dictionary
yields no words. -/
theorem claim_solve_total_witness :
    (validate_puzzle [['a']]).1 = true ∧
    (∀ w ∈ candidates [['a']], TrieNode.empty.search w = false) ∧
    (solve_puzzle [['a']] TrieNode.empty).1 = [] :=
  ⟨by decide, fun w _ => TrieNode.search_empty w,
   (claim_solve_total [['a']] TrieNode.empty (by decide)
     (fun w _ => TrieNode.search_empty w)).1⟩
